import Mathlib

/-!
Verification development for the miow context-retrieval pipeline
(crates miow-prompt, miow-agent, miow-llm).

Shallow embedding of:
 * `SmartPruner::prune` / `calculate_usage` / `remove_test_files` /
   `limit_items` / `aggressive_prune` (crates/miow-prompt/src/pruner.rs)
 * `DeduplicationEngine::deduplicate` (crates/miow-prompt/src/deduplication.rs)
 * `GeminiRouterAgent::build_execution_plan` (crates/miow-agent/src/router.rs)
 * `GeminiContextAuditor::audit` / `audit_category` (crates/miow-agent/src/context_auditor.rs)
 * `QuestionLoop::execute_single_question` (crates/miow-llm/src/question_loop.rs)

Rust `Vec` is embedded as `List`, `HashSet` as a `List` used as a set
(membership only), machine `usize` as `Nat` (the programs only use values
far below overflow: lengths, counts and divisions).
-/

namespace Miow

/-- A symbol item as used by the pruner and the deduplicator:
fields `name`, `file_path`, `content` of the Rust symbol records. -/
structure Symbol where
  name : String
  file_path : String
  content : String
deriving DecidableEq, Repr

/-- A type item: fields `name`, `definition`. -/
structure TypeItem where
  name : String
  definition : String
deriving DecidableEq, Repr

/-- A constant item: fields `name`, `value`. -/
structure ConstItem where
  name : String
  value : String
deriving DecidableEq, Repr

/-- A design-token item: fields `name`, `value`. -/
structure TokenItem where
  name : String
  value : String
deriving DecidableEq, Repr

/-- A schema item: fields `name`, `definition`. -/
structure SchemaItem where
  name : String
  definition : String
deriving DecidableEq, Repr

/-- `ContextData` (crate miow-prompt): the six buckets used by
`SmartPruner` and `DeduplicationEngine`. The struct declaration itself
lives in the crate root; the fields are exactly those accessed by
pruner.rs and deduplication.rs. -/
structure ContextData where
  relevant_symbols : List Symbol
  similar_symbols : List Symbol
  types : List TypeItem
  constants : List ConstItem
  design_tokens : List TokenItem
  schemas : List SchemaItem
deriving DecidableEq, Repr

/-! ## SmartPruner (crates/miow-prompt/src/pruner.rs) -/

/-- `SmartPruner::calculate_usage`: total content characters across all
buckets, divided by 4 (approx. 4 chars per token). -/
def calculate_usage (c : ContextData) : Nat :=
  ((c.relevant_symbols.map (fun s => s.content.length)).sum +
   (c.similar_symbols.map (fun s => s.content.length)).sum +
   (c.types.map (fun t => t.definition.length)).sum +
   (c.constants.map (fun k => k.value.length)).sum +
   (c.design_tokens.map (fun d => d.value.length)).sum +
   (c.schemas.map (fun s => s.definition.length)).sum) / 4

/-- Substring containment, embedding Rust `str::contains` for a
non-empty needle: `s` contains `pat` iff splitting on `pat` yields
more than one piece. -/
def containsSub (s pat : String) : Bool :=
  (s.splitOn pat).length > 1

/-- The test-file heuristic `is_test` inside
`SmartPruner::remove_test_files`. -/
def isTestPath (path : String) : Bool :=
  containsSub path ".test." || containsSub path ".spec." ||
  containsSub path "__tests__" || containsSub path "mock"

/-- `SmartPruner::remove_test_files`: retain non-test-path symbols in the
two symbol buckets; other buckets untouched. -/
def remove_test_files (c : ContextData) : ContextData :=
  { c with
    relevant_symbols := c.relevant_symbols.filter (fun s => !isTestPath s.file_path)
    similar_symbols := c.similar_symbols.filter (fun s => !isTestPath s.file_path) }

/-- `SmartPruner::limit_items` with `MAX_ITEMS = 10`: truncates
`relevant_symbols`, `similar_symbols` and `types` to 10 items; the
function body stops there (comment "// ... others"), so `constants`,
`design_tokens` and `schemas` are left unchanged. Rust's
`truncate(10)` guarded by `len > 10` equals `take 10`. -/
def limit_items (c : ContextData) : ContextData :=
  { c with
    relevant_symbols := c.relevant_symbols.take 10
    similar_symbols := c.similar_symbols.take 10
    types := c.types.take 10 }

/-- The `while` loop at the end of `SmartPruner::aggressive_prune`: while
usage exceeds the budget and `relevant_symbols` is non-empty, pop the
last relevant symbol. -/
def aggressive_loop (budget : Nat) (c : ContextData) : ContextData :=
  if calculate_usage c > budget ∧ c.relevant_symbols ≠ [] then
    aggressive_loop budget { c with relevant_symbols := c.relevant_symbols.dropLast }
  else c
termination_by c.relevant_symbols.length
decreasing_by
  simp only [List.length_dropLast]
  rename_i h
  have : c.relevant_symbols.length ≠ 0 := by
    simpa [List.length_eq_zero] using h.2
  omega

/-- `SmartPruner::aggressive_prune`: clear `similar_symbols`, `constants`
and `design_tokens`, then pop relevant symbols while over budget. -/
def aggressive_prune (budget : Nat) (c : ContextData) : ContextData :=
  aggressive_loop budget
    { c with similar_symbols := [], constants := [], design_tokens := [] }

/-- `SmartPruner::prune`: three tiers applied in order, short-circuiting
as soon as estimated usage fits the budget. -/
def prune (budget : Nat) (c : ContextData) : ContextData :=
  if calculate_usage c ≤ budget then c
  else
    let c1 := remove_test_files c
    if calculate_usage c1 ≤ budget then c1
    else
      let c2 := limit_items c1
      if calculate_usage c2 ≤ budget then c2
      else aggressive_prune budget c2

/-! ## DeduplicationEngine (crates/miow-prompt/src/deduplication.rs) -/

/-- One `Vec::retain` pass over a list with a seen-set of string keys,
keeping an element iff its key was not seen before (Rust
`seen.insert(key)` returns true exactly on first insertion). -/
def dedupKeyed {α : Type} (key : α → String) : List α → List String → List α
  | [], _ => []
  | x :: xs, seen =>
    if seen.contains (key x) then dedupKeyed key xs seen
    else x :: dedupKeyed key xs (key x :: seen)

/-- Dedup key for symbol items: Rust `format!("{}:{}", name, file_path)`. -/
def symKey (s : Symbol) : String := s.name ++ ":" ++ s.file_path

/-- Dedup key for type items: `format!("{}:{}", name, definition)`. -/
def typeKey (t : TypeItem) : String := t.name ++ ":" ++ t.definition

/-- Dedup key for constants: `format!("{}:{}", name, value)`. -/
def constKey (k : ConstItem) : String := k.name ++ ":" ++ k.value

/-- Dedup key for schemas: `format!("{}:{}", name, definition)`. -/
def schemaKey (s : SchemaItem) : String := s.name ++ ":" ++ s.definition

/-- `DeduplicationEngine::deduplicate`: dedup `relevant_symbols` by
name:path key, drop from `similar_symbols` every symbol whose name
already occurs in the (deduplicated) relevant bucket, then dedup
`types`, `constants` and `schemas` by their keys. `design_tokens` and
the interior of `similar_symbols` are not deduplicated. -/
def deduplicate (c : ContextData) : ContextData :=
  let rel := dedupKeyed symKey c.relevant_symbols []
  let relevantNames := rel.map (fun s => s.name)
  { relevant_symbols := rel
    similar_symbols := c.similar_symbols.filter (fun s => !relevantNames.contains s.name)
    types := dedupKeyed typeKey c.types []
    constants := dedupKeyed constKey c.constants []
    design_tokens := c.design_tokens
    schemas := dedupKeyed schemaKey c.schemas [] }

/-! ## GeminiRouterAgent::build_execution_plan (crates/miow-agent/src/router.rs)

The registry (`PromptRegistry::get_prompt`) is embedded as a function
from worker keys to `Option` of the prompt's declared dependency list;
`build_execution_plan` only reads `prompt.dependencies`. -/

/-- Result of one `remaining.retain(...)` pass inside
`build_execution_plan`: the ids kept in `remaining`, the grown
`execution_order` and `processed` set, and the `progressed` flag. -/
structure PassResult where
  kept : List String
  order : List String
  processed : List String
  progressed : Bool
deriving DecidableEq, Repr

/-- One `retain` pass of `build_execution_plan`: scan `remaining` in
order; a worker found in the registry moves to `execution_order` iff all
its dependencies are in `processed` (which grows during the pass), an
unknown worker always moves; otherwise it is kept in `remaining`. -/
def pass (reg : String → Option (List String)) :
    List String → List String → List String → Bool → PassResult
  | [], order, processed, prog => ⟨[], order, processed, prog⟩
  | w :: ws, order, processed, prog =>
    match reg w with
    | some deps =>
      if deps.all (fun d => processed.contains d) then
        pass reg ws (order ++ [w]) (w :: processed) true
      else
        let r := pass reg ws order processed prog
        { r with kept := w :: r.kept }
    | none => pass reg ws (order ++ [w]) (w :: processed) true

theorem pass_kept_le (reg : String → Option (List String)) :
    ∀ (l order processed : List String) (prog : Bool),
      (pass reg l order processed prog).kept.length ≤ l.length := by
  intro l
  induction l with
  | nil => intro order processed prog; simp [pass]
  | cons w ws ih =>
    intro order processed prog
    simp only [pass]
    cases hreg : reg w with
    | some deps =>
      by_cases hall : deps.all (fun d => processed.contains d)
      · simp only [hall, if_true]
        exact Nat.le_trans (ih _ _ _) (Nat.le_succ _)
      · simp only [hall, if_false, List.length_cons]
        exact Nat.succ_le_succ (ih _ _ _)
    | none =>
      exact Nat.le_trans (ih _ _ _) (Nat.le_succ _)

theorem pass_progress_kept_lt (reg : String → Option (List String)) :
    ∀ (l order processed : List String),
      (pass reg l order processed false).progressed = true →
      (pass reg l order processed false).kept.length < l.length := by
  intro l
  induction l with
  | nil => intro order processed h; simp [pass] at h
  | cons w ws ih =>
    intro order processed h
    simp only [pass] at h ⊢
    cases hreg : reg w with
    | some deps =>
      rw [hreg] at h
      by_cases hall : deps.all (fun d => processed.contains d)
      · simp only [hall, if_true]
        exact Nat.lt_succ_of_le (pass_kept_le reg ws _ _ true)
      · simp only [hall, if_false] at h ⊢
        simp only [List.length_cons]
        exact Nat.succ_lt_succ (ih _ _ h)
    | none =>
      exact Nat.lt_succ_of_le (pass_kept_le reg ws (order ++ [w]) (w :: processed) true)

/-- The outer `while !remaining.is_empty()` loop of
`build_execution_plan`: run a pass; if it progressed, continue with the
kept ids; otherwise append the remaining ids in their current order
(cycle / unresolved-dependency break) and stop. -/
def buildLoop (reg : String → Option (List String))
    (remaining order processed : List String) : List String :=
  if remaining = [] then order
  else
    let r := pass reg remaining order processed false
    if _h : r.progressed = true then
      buildLoop reg r.kept r.order r.processed
    else r.order ++ r.kept
termination_by remaining.length
decreasing_by
  exact pass_progress_kept_lt reg remaining order processed _h

/-- `GeminiRouterAgent::build_execution_plan`. -/
def build_execution_plan (reg : String → Option (List String))
    (worker_ids : List String) : List String :=
  buildLoop reg worker_ids [] []

/-! ## GeminiContextAuditor (crates/miow-agent/src/context_auditor.rs) -/

/-- An item of a gathered-context category, declared in the miow-llm
crate root; the fields are those read by context_auditor.rs. -/
structure ContextItem where
  name : String
  kind : String
  file_path : String
  content : String
deriving DecidableEq, Repr

/-- `GatheredContext` (miow-llm crate root): the four categories audited
by `GeminiContextAuditor::audit`. -/
structure GatheredContext where
  components : List ContextItem
  helpers : List ContextItem
  types : List ContextItem
  schemas : List ContextItem
deriving DecidableEq, Repr

/-- Outcome of one audit round-trip as observed by `audit_category`: the
backend call failed, the reply decoded as JSON in neither its
fence-stripped nor its raw form, or a `keep_indices` list was decoded. -/
inductive AuditReply where
  | callError
  | badJson
  | keep (indices : List Nat)
deriving DecidableEq, Repr

/-- `GeminiContextAuditor::audit_category` on one category's items, given
the backend's reply. Small categories (≤ 8 items) are skipped; call and
decode failures leave the items unchanged (the error is swallowed by the
caller's `.ok()` before any mutation); an empty `keep_indices` means "no
opinion"; otherwise items at the returned indices are collected in reply
order (out-of-range indices skipped) and replace the list only when the
selection is non-empty. -/
def audit_category (items : List ContextItem) (reply : AuditReply) : List ContextItem :=
  if items.length ≤ 8 then items
  else
    match reply with
    | .callError => items
    | .badJson => items
    | .keep indices =>
      if indices = [] then items
      else
        let new_items := indices.filterMap (fun i => items[i]?)
        if new_items = [] then items else new_items

/-- One backend reply per audited category. -/
structure AuditReplies where
  components : AuditReply
  helpers : AuditReply
  types : AuditReply
  schemas : AuditReply
deriving DecidableEq, Repr

/-- `GeminiContextAuditor::audit`: skip everything when at most 12 items
in total; otherwise audit the four categories independently, each
against its own backend reply. -/
def audit (g : GatheredContext) (r : AuditReplies) : GatheredContext :=
  if g.components.length + g.helpers.length + g.types.length + g.schemas.length ≤ 12 then g
  else
    { components := audit_category g.components r.components
      helpers := audit_category g.helpers r.helpers
      types := audit_category g.types r.types
      schemas := audit_category g.schemas r.schemas }

/-! ## QuestionLoop::execute_single_question (crates/miow-llm/src/question_loop.rs) -/

/-- A symbol search result (`SymbolSearchResult`, miow-graph crate root);
the fields read by question_loop.rs. -/
structure SymbolMatch where
  name : String
  file_path : String
  kind : String
deriving DecidableEq, Repr

/-- `QuestionAnswer`. The Rust `confidence` is an `f32` that only ever
holds the literals 1.0 and 0.5, both exactly representable; it is
embedded as a rational. -/
structure QuestionAnswer where
  question : String
  symbols : List SymbolMatch
  confidence : ℚ
deriving DecidableEq, Repr

/-- `QuestionResult`. -/
inductive QuestionResult where
  | Found (answers : List QuestionAnswer)
  | NotFound
  | PartiallyFound (answers : List QuestionAnswer)
deriving DecidableEq, Repr

/-- The observable behaviour of the backends across attempts of one
question: `results i` is the merged search result list of attempt `i`
(0-based), `verdict i` the `is_correct` field the verification step
yields on attempt `i` (including the fail-open default on parse
failure). Reformulation only rewrites the search query, which the later
attempts' results already account for. -/
structure LoopBehaviour where
  results : Nat → List SymbolMatch
  verdict : Nat → Bool

/-- `QuestionLoop::max_retries` (constructor default). -/
def max_retries : Nat := 3

/-- The `for attempt in 0..max_retries` loop body of
`QuestionLoop::execute_single_question`, entered at a given attempt
index: empty results reformulate-and-retry unless this is the final
attempt (then `NotFound`); a correct verification returns `Found` with
confidence 1.0 and the attempt's results; an incorrect one
reformulates-and-retries unless final, in which case non-empty results
give `PartiallyFound` with confidence 0.5, else `NotFound`. Falling out
of the loop yields `NotFound`. -/
def execFrom (b : LoopBehaviour) (q : String) (attempt : Nat) : QuestionResult :=
  if h : attempt < max_retries then
    let res := b.results attempt
    if res = [] ∧ attempt < max_retries - 1 then
      execFrom b q (attempt + 1)
    else if res = [] then
      .NotFound
    else if b.verdict attempt then
      .Found [⟨q, res, 1⟩]
    else if attempt < max_retries - 1 then
      execFrom b q (attempt + 1)
    else if res ≠ [] then
      .PartiallyFound [⟨q, res, (1 : ℚ)/2⟩]
    else
      .NotFound
  else .NotFound
termination_by max_retries - attempt
decreasing_by
  all_goals omega

/-- `QuestionLoop::execute_single_question` for a question with the given
text, under the given backend behaviour. -/
def execute_single_question (b : LoopBehaviour) (q : String) : QuestionResult :=
  execFrom b q 0

/-! ## Properties of the pruner -/

/-- The buckets the pruner can empty: `aggressive_prune` clears
`similar_symbols`, `constants` and `design_tokens` outright and pops
`relevant_symbols` until the budget fits or the bucket is empty.
`types` and `schemas` are only ever truncated to 10 items by
`limit_items`, never emptied — once the four buckets below are empty the
pruner has nothing left it can shrink, which is the spec's "every
prunable category is already empty (cannot shrink further)". -/
def prunable_buckets_empty (c : ContextData) : Prop :=
  c.relevant_symbols = [] ∧ c.similar_symbols = [] ∧
  c.constants = [] ∧ c.design_tokens = []

theorem aggressive_loop_spec (budget : Nat) (c : ContextData) :
    (calculate_usage (aggressive_loop budget c) ≤ budget ∨
      (aggressive_loop budget c).relevant_symbols = []) ∧
    (aggressive_loop budget c).similar_symbols = c.similar_symbols ∧
    (aggressive_loop budget c).constants = c.constants ∧
    (aggressive_loop budget c).design_tokens = c.design_tokens ∧
    (aggressive_loop budget c).types = c.types ∧
    (aggressive_loop budget c).schemas = c.schemas := by
  induction c using aggressive_loop.induct budget with
  | case1 c hcond ih =>
    rw [aggressive_loop, if_pos hcond]
    exact ih
  | case2 c hcond =>
    rw [aggressive_loop, if_neg hcond]
    refine ⟨?_, rfl, rfl, rfl, rfl, rfl⟩
    by_cases hu : calculate_usage c ≤ budget
    · exact Or.inl hu
    · right
      by_contra hne
      exact hcond ⟨Nat.lt_of_not_le hu, hne⟩

theorem aggressive_prune_spec (budget : Nat) (c : ContextData) :
    calculate_usage (aggressive_prune budget c) ≤ budget ∨
      prunable_buckets_empty (aggressive_prune budget c) := by
  unfold aggressive_prune
  have h := aggressive_loop_spec budget
    { c with similar_symbols := [], constants := [], design_tokens := [] }
  rcases h with ⟨husage, hsim, hcon, hdes, -, -⟩
  rcases husage with h1 | h1
  · exact Or.inl h1
  · exact Or.inr ⟨h1, hsim, hcon, hdes⟩

/-- C1: for every `ContextData` and every `token_budget ≥ 0`, after
`SmartPruner::prune` either the estimated usage (total content
characters across all buckets divided by 4) is within the budget, or
every prunable bucket — the four buckets the pruner is able to empty:
`relevant_symbols`, `similar_symbols`, `constants`, `design_tokens` — is
empty. (`prune` is a total Lean function, so it also terminates and
never fails.) -/
theorem prune_converges (budget : Nat) (c : ContextData) :
    calculate_usage (prune budget c) ≤ budget ∨
      prunable_buckets_empty (prune budget c) := by
  unfold prune
  by_cases h0 : calculate_usage c ≤ budget
  · rw [if_pos h0]; exact Or.inl h0
  · rw [if_neg h0]
    by_cases h1 : calculate_usage (remove_test_files c) ≤ budget
    · simp only [if_pos h1]; exact Or.inl h1
    · simp only [if_neg h1]
      by_cases h2 : calculate_usage (limit_items (remove_test_files c)) ≤ budget
      · simp only [if_pos h2]; exact Or.inl h2
      · simp only [if_neg h2]
        exact aggressive_prune_spec budget (limit_items (remove_test_files c))

/-- An 11-constant context on which `limit_items` caps nothing: the
second pruning tier is reached with a zero budget, yet the constants
bucket still holds 11 items afterwards. -/
def ctxElevenConsts : ContextData :=
  ⟨[], [], [], List.replicate 11 ⟨"K", "vvvv"⟩, [], []⟩

/-- C5 counterexample: with `ctxElevenConsts` and budget 0, `prune`
reaches its second tier (usage exceeds the budget before and after
test-file removal), yet after `limit_items` the constants category holds
11 items — more than 10 — because `limit_items` truncates only
`relevant_symbols`, `similar_symbols` and `types`. -/
theorem limit_items_misses_constants :
    calculate_usage ctxElevenConsts > 0 ∧
    calculate_usage (remove_test_files ctxElevenConsts) > 0 ∧
    (limit_items (remove_test_files ctxElevenConsts)).constants.length = 11 := by
  refine ⟨?_, ?_, ?_⟩ <;> decide

/-- C5 amended: whenever `prune` reaches its second tier, after
`limit_items` the `relevant_symbols`, `similar_symbols` and `types`
categories are capped at 10 items, keeping the earliest items of their
pre-existing order (they become `take 10` of the tier-1 output), while
`constants`, `design_tokens` and `schemas` pass through this tier
unchanged. -/
theorem limit_items_caps_three_categories (budget : Nat) (c : ContextData)
    (_h0 : ¬ calculate_usage c ≤ budget)
    (_h1 : ¬ calculate_usage (remove_test_files c) ≤ budget) :
    (limit_items (remove_test_files c)).relevant_symbols
        = (remove_test_files c).relevant_symbols.take 10 ∧
    (limit_items (remove_test_files c)).similar_symbols
        = (remove_test_files c).similar_symbols.take 10 ∧
    (limit_items (remove_test_files c)).types
        = (remove_test_files c).types.take 10 ∧
    (limit_items (remove_test_files c)).relevant_symbols.length ≤ 10 ∧
    (limit_items (remove_test_files c)).similar_symbols.length ≤ 10 ∧
    (limit_items (remove_test_files c)).types.length ≤ 10 ∧
    (limit_items (remove_test_files c)).constants = (remove_test_files c).constants ∧
    (limit_items (remove_test_files c)).design_tokens
        = (remove_test_files c).design_tokens ∧
    (limit_items (remove_test_files c)).schemas = (remove_test_files c).schemas := by
  refine ⟨rfl, rfl, rfl, ?_, ?_, ?_, rfl, rfl, rfl⟩ <;>
    simp [limit_items, List.length_take]

/-- C5 amended, instantiated: the capping theorem applied to the concrete
`ctxElevenConsts` context with budget 0. -/
theorem limit_items_caps_three_categories_witness :
    (limit_items (remove_test_files ctxElevenConsts)).relevant_symbols
        = (remove_test_files ctxElevenConsts).relevant_symbols.take 10 ∧
    (limit_items (remove_test_files ctxElevenConsts)).similar_symbols
        = (remove_test_files ctxElevenConsts).similar_symbols.take 10 ∧
    (limit_items (remove_test_files ctxElevenConsts)).types
        = (remove_test_files ctxElevenConsts).types.take 10 ∧
    (limit_items (remove_test_files ctxElevenConsts)).relevant_symbols.length ≤ 10 ∧
    (limit_items (remove_test_files ctxElevenConsts)).similar_symbols.length ≤ 10 ∧
    (limit_items (remove_test_files ctxElevenConsts)).types.length ≤ 10 ∧
    (limit_items (remove_test_files ctxElevenConsts)).constants
        = (remove_test_files ctxElevenConsts).constants ∧
    (limit_items (remove_test_files ctxElevenConsts)).design_tokens
        = (remove_test_files ctxElevenConsts).design_tokens ∧
    (limit_items (remove_test_files ctxElevenConsts)).schemas
        = (remove_test_files ctxElevenConsts).schemas :=
  limit_items_caps_three_categories 0 ctxElevenConsts
    (by decide) (by decide)

/-! ## Properties of the auditor -/

/-- The audit replies on which `audit_category` must leave a category
untouched: a failed backend call, a reply that decodes as JSON in
neither its fence-stripped nor its raw form, or an empty
`keep_indices` list. -/
def failedReply (r : AuditReply) : Prop :=
  r = .callError ∨ r = .badJson ∨ r = .keep []

/-- C8: on a backend error, an undecodable reply, or an empty decoded
`keep_indices`, `audit_category` leaves the category's item list with
exactly the same items in the same order; and in `audit` each category's
outcome depends only on that category's own reply, so a failure on one
category never prevents the others from being audited. -/
theorem audit_fail_open :
    (∀ (items : List ContextItem) (r : AuditReply), failedReply r →
      audit_category items r = items) ∧
    (∀ (g : GatheredContext) (rs rs' : AuditReplies),
      rs.components = rs'.components → (audit g rs).components = (audit g rs').components) ∧
    (∀ (g : GatheredContext) (rs rs' : AuditReplies),
      rs.helpers = rs'.helpers → (audit g rs).helpers = (audit g rs').helpers) ∧
    (∀ (g : GatheredContext) (rs rs' : AuditReplies),
      rs.types = rs'.types → (audit g rs).types = (audit g rs').types) ∧
    (∀ (g : GatheredContext) (rs rs' : AuditReplies),
      rs.schemas = rs'.schemas → (audit g rs).schemas = (audit g rs').schemas) := by
  refine ⟨?_, ?_, ?_, ?_, ?_⟩
  · intro items r hr
    rcases hr with h | h | h <;> subst h <;> simp [audit_category]
  all_goals
    intro g rs rs' h
    unfold audit
    split <;> simp [h]

/-- C8 witness: `audit_category` at a concrete 9-item category leaves it
unchanged on each of the three failure replies, and a concrete `audit`
whose components reply errors still audits the types category. -/
theorem audit_fail_open_witness :
    audit_category (List.replicate 9 ⟨"n", "k", "f", "c"⟩) .callError
        = List.replicate 9 ⟨"n", "k", "f", "c"⟩ ∧
    audit_category (List.replicate 9 ⟨"n", "k", "f", "c"⟩) .badJson
        = List.replicate 9 ⟨"n", "k", "f", "c"⟩ ∧
    audit_category (List.replicate 9 ⟨"n", "k", "f", "c"⟩) (.keep [])
        = List.replicate 9 ⟨"n", "k", "f", "c"⟩ ∧
    (audit ⟨List.replicate 9 ⟨"n", "k", "f", "c"⟩, [], List.replicate 9 ⟨"t", "k", "f", "c"⟩, []⟩
        ⟨.callError, .keep [0], .keep [0], .keep [0]⟩).types
      = (audit ⟨List.replicate 9 ⟨"n", "k", "f", "c"⟩, [], List.replicate 9 ⟨"t", "k", "f", "c"⟩, []⟩
        ⟨.badJson, .keep [0], .keep [0], .keep [0]⟩).types :=
  ⟨audit_fail_open.1 _ .callError (Or.inl rfl),
   audit_fail_open.1 _ .badJson (Or.inr (Or.inl rfl)),
   audit_fail_open.1 _ (.keep []) (Or.inr (Or.inr rfl)),
   audit_fail_open.2.2.2.1 _ _ _ rfl⟩

/-- C10: `audit_category` never empties a category that had items: under
every reply a non-empty item list stays non-empty; and when the decoded
`keep_indices` is non-empty but every index is out of range (at least
the list's length), the selection comes out empty and the original items
are left exactly unchanged rather than replaced by it. -/
theorem audit_category_keeps_nonempty :
    (∀ (items : List ContextItem) (r : AuditReply),
      items ≠ [] → audit_category items r ≠ []) ∧
    (∀ (items : List ContextItem) (indices : List Nat),
      indices ≠ [] → (∀ i ∈ indices, items.length ≤ i) →
      audit_category items (.keep indices) = items) := by
  constructor
  · intro items r h
    unfold audit_category
    split
    · exact h
    · match r with
      | .callError => exact h
      | .badJson => exact h
      | .keep indices =>
        simp only
        split
        · exact h
        · split
          · exact h
          · assumption
  · intro items indices hne hout
    unfold audit_category
    split
    · rfl
    · simp only [hne, if_false]
      have hsel : indices.filterMap (fun i => items[i]?) = [] := by
        rw [List.filterMap_eq_nil_iff]
        intro i hi
        exact List.getElem?_eq_none (hout i hi)
      rw [hsel]
      simp

/-- C10 witness: a nine-item category audited with only out-of-range
indices is left exactly unchanged, in particular non-empty. -/
theorem audit_category_keeps_nonempty_witness :
    audit_category (List.replicate 9 ⟨"n", "k", "f", "c"⟩) (.keep [100, 200])
        = List.replicate 9 ⟨"n", "k", "f", "c"⟩ ∧
    audit_category (List.replicate 9 ⟨"n", "k", "f", "c"⟩) (.keep [100, 200]) ≠ [] :=
  ⟨audit_category_keeps_nonempty.2 (List.replicate 9 ⟨"n", "k", "f", "c"⟩)
      [100, 200] (by decide) (by decide),
   audit_category_keeps_nonempty.1 (List.replicate 9 ⟨"n", "k", "f", "c"⟩)
      (.keep [100, 200]) (by decide)⟩

/-! ## The shrink-only invariant (C6) -/

/-- Bucket-wise containment: every item of every bucket of `d` already
occurs in the same bucket of `c`. -/
def bucketsWithin (d c : ContextData) : Prop :=
  (∀ x ∈ d.relevant_symbols, x ∈ c.relevant_symbols) ∧
  (∀ x ∈ d.similar_symbols, x ∈ c.similar_symbols) ∧
  (∀ x ∈ d.types, x ∈ c.types) ∧
  (∀ x ∈ d.constants, x ∈ c.constants) ∧
  (∀ x ∈ d.design_tokens, x ∈ c.design_tokens) ∧
  (∀ x ∈ d.schemas, x ∈ c.schemas)

theorem dedupKeyed_subset {α : Type} (key : α → String) :
    ∀ (l : List α) (seen : List String) (x : α),
      x ∈ dedupKeyed key l seen → x ∈ l := by
  intro l
  induction l with
  | nil => intro seen x hx; simp [dedupKeyed] at hx
  | cons y ys ih =>
    intro seen x hx
    simp only [dedupKeyed] at hx
    by_cases hy : seen.contains (key y)
    · rw [if_pos hy] at hx
      exact List.mem_cons_of_mem y (ih _ _ hx)
    · rw [if_neg hy] at hx
      rcases List.mem_cons.mp hx with h | h
      · exact h ▸ List.mem_cons_self y ys
      · exact List.mem_cons_of_mem y (ih _ _ h)

theorem aggressive_loop_relevant_sublist (budget : Nat) (c : ContextData) :
    (aggressive_loop budget c).relevant_symbols.Sublist c.relevant_symbols := by
  induction c using aggressive_loop.induct budget with
  | case1 c hcond ih =>
    rw [aggressive_loop, if_pos hcond]
    exact ih.trans (List.dropLast_sublist c.relevant_symbols)
  | case2 c hcond =>
    rw [aggressive_loop, if_neg hcond]

theorem prune_buckets_within (budget : Nat) (c : ContextData) :
    bucketsWithin (prune budget c) c := by
  have hsub : ∀ (d : ContextData), bucketsWithin d d :=
    fun d => ⟨fun _ h => h, fun _ h => h, fun _ h => h, fun _ h => h, fun _ h => h, fun _ h => h⟩
  unfold prune
  by_cases h0 : calculate_usage c ≤ budget
  case pos => rw [if_pos h0]; exact hsub c
  rw [if_neg h0]
  by_cases h1 : calculate_usage (remove_test_files c) ≤ budget
  case pos =>
    simp only [if_pos h1]
    exact ⟨fun x hx => (List.filter_sublist _).mem hx,
      fun x hx => (List.filter_sublist _).mem hx,
      fun _ h => h, fun _ h => h, fun _ h => h, fun _ h => h⟩
  simp only [if_neg h1]
  by_cases h2 : calculate_usage (limit_items (remove_test_files c)) ≤ budget
  case pos =>
    simp only [if_pos h2]
    refine ⟨?_, ?_, ?_, fun _ h => h, fun _ h => h, fun _ h => h⟩
    · exact fun x hx =>
        (List.filter_sublist _).mem ((List.take_sublist _ _).mem hx)
    · exact fun x hx =>
        (List.filter_sublist _).mem ((List.take_sublist _ _).mem hx)
    · exact fun x hx => (List.take_sublist _ _).mem hx
  simp only [if_neg h2]
  refine ⟨?_, ?_, ?_, ?_, ?_, ?_⟩
  · intro x hx
    have h1 := (aggressive_loop_relevant_sublist budget _).mem hx
    exact (List.filter_sublist _).mem ((List.take_sublist _ _).mem h1)
  · intro x hx
    have h2 := (aggressive_loop_spec budget
      { limit_items (remove_test_files c) with
        similar_symbols := [], constants := [], design_tokens := [] }).2.1
    rw [aggressive_prune] at hx
    rw [h2] at hx
    simp at hx
  · intro x hx
    have h2 := (aggressive_loop_spec budget
      { limit_items (remove_test_files c) with
        similar_symbols := [], constants := [], design_tokens := [] }).2.2.2.2.1
    rw [aggressive_prune] at hx
    rw [h2] at hx
    exact (List.take_sublist _ _).mem hx
  · intro x hx
    have h2 := (aggressive_loop_spec budget
      { limit_items (remove_test_files c) with
        similar_symbols := [], constants := [], design_tokens := [] }).2.2.1
    rw [aggressive_prune] at hx
    rw [h2] at hx
    simp at hx
  · intro x hx
    have h2 := (aggressive_loop_spec budget
      { limit_items (remove_test_files c) with
        similar_symbols := [], constants := [], design_tokens := [] }).2.2.2.1
    rw [aggressive_prune] at hx
    rw [h2] at hx
    simp at hx
  · intro x hx
    have h2 := (aggressive_loop_spec budget
      { limit_items (remove_test_files c) with
        similar_symbols := [], constants := [], design_tokens := [] }).2.2.2.2.2
    rw [aggressive_prune] at hx
    rw [h2] at hx
    exact hx

/-- C6: the three shrink operations only remove items. Every item of any
bucket of `deduplicate c` or `prune budget c` was already in that bucket
of `c`, and every item `audit_category` leaves in a category was in that
category before — under every backend behaviour (`AuditReply`), nothing
is added or fabricated. -/
theorem shrink_ops_only_remove :
    (∀ (c : ContextData), bucketsWithin (deduplicate c) c) ∧
    (∀ (budget : Nat) (c : ContextData), bucketsWithin (prune budget c) c) ∧
    (∀ (items : List ContextItem) (r : AuditReply) (x : ContextItem),
      x ∈ audit_category items r → x ∈ items) := by
  refine ⟨?_, prune_buckets_within, ?_⟩
  · intro c
    refine ⟨fun x hx => dedupKeyed_subset symKey _ _ x hx,
      fun x hx => (List.filter_sublist _).mem hx,
      fun x hx => dedupKeyed_subset typeKey _ _ x hx,
      fun x hx => dedupKeyed_subset constKey _ _ x hx,
      fun _ h => h,
      fun x hx => dedupKeyed_subset schemaKey _ _ x hx⟩
  · intro items r x hx
    unfold audit_category at hx
    split at hx
    · exact hx
    · match r, hx with
      | .callError, hx => exact hx
      | .badJson, hx => exact hx
      | .keep indices, hx =>
        simp only at hx
        split at hx
        · exact hx
        · split at hx
          · exact hx
          · rcases List.mem_filterMap.mp hx with ⟨i, -, hi⟩
            exact List.getElem?_mem hi

/-- C6 witness: the audit containment statement at a concrete input. -/
theorem shrink_ops_only_remove_witness :
    (⟨"n", "k", "f", "c"⟩ : ContextItem) ∈ [(⟨"n", "k", "f", "c"⟩ : ContextItem)] :=
  shrink_ops_only_remove.2.2 [⟨"n", "k", "f", "c"⟩] (.keep [0])
    ⟨"n", "k", "f", "c"⟩ (by decide)

/-! ## Properties of the question loop -/

/-- Attempt `j` lets the loop continue to attempt `j + 1` (for `j` before
the final attempt): its merged results were empty, or verification
judged them incorrect. -/
def continuesAt (b : LoopBehaviour) (j : Nat) : Prop :=
  b.results j = [] ∨ b.verdict j = false

theorem execFrom_step (b : LoopBehaviour) (q : String) (i : Nat)
    (hi : i < max_retries - 1) (hc : continuesAt b i) :
    execFrom b q i = execFrom b q (i + 1) := by
  have hi3 : i < max_retries := by
    unfold max_retries at *; omega
  rw [execFrom, dif_pos hi3]
  by_cases hres : b.results i = []
  · rw [if_pos ⟨hres, hi⟩]
  · rw [if_neg (fun hand => hres hand.1), if_neg hres]
    have hv : b.verdict i = false := by
      rcases hc with h | h
      · exact absurd h hres
      · exact h
    rw [hv]
    simp only [Bool.false_eq_true, if_false]
    rw [if_pos hi]

theorem execFrom_reaches (b : LoopBehaviour) (q : String) :
    ∀ (i : Nat), i ≤ max_retries - 1 → (∀ j, j < i → continuesAt b j) →
      execute_single_question b q = execFrom b q i := by
  intro i
  induction i with
  | zero => intro _ _; rfl
  | succ k ih =>
    intro hk hcont
    have h1 : execute_single_question b q = execFrom b q k :=
      ih (Nat.le_of_succ_le hk) (fun j hj => hcont j (Nat.lt_succ_of_lt hj))
    rw [h1, execFrom_step b q k (Nat.lt_of_succ_le hk) (hcont k (Nat.lt_succ_self k))]

theorem execFrom_found (b : LoopBehaviour) (q : String) (i : Nat)
    (hi : i < max_retries) (hres : b.results i ≠ []) (hv : b.verdict i = true) :
    execFrom b q i = .Found [⟨q, b.results i, 1⟩] := by
  rw [execFrom, dif_pos hi]
  rw [if_neg (fun hand => hres hand.1), if_neg hres, hv]
  simp only [if_true]

/-- C7: under any backend behaviour, with `max_retries = 3`:
if the loop reaches an attempt whose merged results are non-empty and
whose verification says `is_correct`, the outcome is `Found` holding
exactly one `QuestionAnswer` with confidence exactly 1.0 and that
attempt's results as its symbols; if every earlier attempt continued and
the final attempt's results are non-empty but judged incorrect, the
outcome is `PartiallyFound` with confidence exactly 0.5; if the final
attempt's results are empty, the outcome is `NotFound`. -/
theorem question_loop_outcomes (b : LoopBehaviour) (q : String) :
    (∀ i, i < max_retries → (∀ j, j < i → continuesAt b j) →
      b.results i ≠ [] → b.verdict i = true →
      execute_single_question b q = .Found [⟨q, b.results i, 1⟩]) ∧
    ((∀ j, j < max_retries - 1 → continuesAt b j) →
      b.results (max_retries - 1) ≠ [] → b.verdict (max_retries - 1) = false →
      execute_single_question b q
        = .PartiallyFound [⟨q, b.results (max_retries - 1), (1 : ℚ)/2⟩]) ∧
    ((∀ j, j < max_retries - 1 → continuesAt b j) →
      b.results (max_retries - 1) = [] →
      execute_single_question b q = .NotFound) := by
  refine ⟨?_, ?_, ?_⟩
  · intro i hi hcont hres hv
    have hle : i ≤ max_retries - 1 := by unfold max_retries at *; omega
    rw [execFrom_reaches b q i hle hcont]
    exact execFrom_found b q i hi hres hv
  · intro hcont hres hv
    rw [execFrom_reaches b q (max_retries - 1) (Nat.le_refl _) hcont]
    rw [execFrom, dif_pos (by unfold max_retries; omega)]
    rw [if_neg (fun hand => hres hand.1), if_neg hres, hv]
    simp only [Bool.false_eq_true, if_false]
    rw [if_neg (by unfold max_retries; omega), if_pos hres]
  · intro hcont hres
    rw [execFrom_reaches b q (max_retries - 1) (Nat.le_refl _) hcont]
    rw [execFrom, dif_pos (by unfold max_retries; omega)]
    rw [if_neg (fun hand => (by unfold max_retries at hand; omega : ¬ _) hand.2)]
    rw [if_pos hres]

/-- The spec's QuestionLoop scenario fixture: empty search results on
attempts 1 and 2, one match on attempt 3, verification correct. -/
def scenarioBehaviour : LoopBehaviour :=
  ⟨fun i => if i = 2 then [⟨"Button", "src/Button.tsx", "component"⟩] else [],
   fun _ => true⟩

/-- C7 witness: the spec's scenario — results only on the third attempt
and a correct verification — ends `Found` with confidence 1.0 and
exactly that one symbol. -/
theorem question_loop_outcomes_witness :
    execute_single_question scenarioBehaviour "Is there a Button component?"
      = .Found [⟨"Is there a Button component?",
          [⟨"Button", "src/Button.tsx", "component"⟩], 1⟩] :=
  (question_loop_outcomes scenarioBehaviour "Is there a Button component?").1
    2 (by decide)
    (by
      intro j hj
      left
      interval_cases j <;> rfl)
    (by decide) rfl

/-! ## Properties of the deduplicator -/

/-- First-occurrence-wins deduplication, written from the spec's words:
keep each element and delete every later element carrying the same key. -/
def keepFirstOcc {α : Type} (key : α → String) : List α → List α
  | [] => []
  | x :: xs => x :: keepFirstOcc key (xs.filter (fun y => key y != key x))
termination_by l => l.length
decreasing_by
  simp only [List.length_cons]
  exact Nat.lt_succ_of_le (List.length_filter_le _ _)

theorem dedupKeyed_fresh_pairwise {α : Type} (key : α → String) :
    ∀ (l : List α) (seen : List String),
      (∀ x ∈ dedupKeyed key l seen, seen.contains (key x) = false) ∧
      (dedupKeyed key l seen).Pairwise (fun a b => key a ≠ key b) := by
  intro l
  induction l with
  | nil => intro seen; simp [dedupKeyed]
  | cons x xs ih =>
    intro seen
    simp only [dedupKeyed]
    by_cases hx : seen.contains (key x)
    · rw [if_pos hx]; exact ih seen
    · rw [if_neg hx]
      have h := ih (key x :: seen)
      constructor
      · intro y hy
        rcases List.mem_cons.mp hy with h1 | h1
        · subst h1
          exact Bool.eq_false_iff.mpr hx
        · have h2 := h.1 y h1
          simp only [List.contains_cons, Bool.or_eq_false_iff] at h2
          exact h2.2
      · refine List.pairwise_cons.mpr ⟨?_, h.2⟩
        intro y hy
        have h2 := h.1 y hy
        simp only [List.contains_cons, Bool.or_eq_false_iff] at h2
        intro heq
        rw [heq] at h2
        simp at h2

theorem dedupKeyed_id_of_fresh {α : Type} (key : α → String) :
    ∀ (l : List α) (seen : List String),
      l.Pairwise (fun a b => key a ≠ key b) →
      (∀ x ∈ l, seen.contains (key x) = false) →
      dedupKeyed key l seen = l := by
  intro l
  induction l with
  | nil => intro seen _ _; rfl
  | cons x xs ih =>
    intro seen hpw hfresh
    have hx : seen.contains (key x) = false := hfresh x (List.mem_cons_self x xs)
    simp only [dedupKeyed, hx, Bool.false_eq_true, if_false]
    congr 1
    apply ih (key x :: seen) (List.pairwise_cons.mp hpw).2
    intro y hy
    simp only [List.contains_cons, Bool.or_eq_false_iff]
    refine ⟨?_, hfresh y (List.mem_cons_of_mem x hy)⟩
    have hne : key x ≠ key y := (List.pairwise_cons.mp hpw).1 y hy
    simpa using fun h => hne (by simpa using h.symm)

theorem dedupKeyed_idem {α : Type} (key : α → String) (l : List α) :
    dedupKeyed key (dedupKeyed key l []) [] = dedupKeyed key l [] := by
  apply dedupKeyed_id_of_fresh
  · exact (dedupKeyed_fresh_pairwise key l []).2
  · intro x _
    rfl

theorem filter_twice {α : Type} (p : α → Bool) (l : List α) :
    (l.filter p).filter p = l.filter p := by
  induction l with
  | nil => rfl
  | cons x xs ih =>
    by_cases h : p x <;> simp [List.filter_cons, h, ih]

/-- C9: `DeduplicationEngine::deduplicate` is idempotent — a second
application changes no bucket. -/
theorem deduplicate_idempotent (c : ContextData) :
    deduplicate (deduplicate c) = deduplicate c := by
  simp only [deduplicate, ContextData.mk.injEq]
  refine ⟨dedupKeyed_idem symKey c.relevant_symbols, ?_,
    dedupKeyed_idem typeKey c.types, dedupKeyed_idem constKey c.constants,
    trivial, dedupKeyed_idem schemaKey c.schemas⟩
  rw [dedupKeyed_idem symKey c.relevant_symbols]
  exact filter_twice _ _

theorem dedupKeyed_eq_keepFirstOcc {α : Type} (key : α → String) :
    ∀ (l : List α) (seen : List String),
      dedupKeyed key l seen
        = keepFirstOcc key (l.filter (fun y => !seen.contains (key y))) := by
  intro l
  induction l with
  | nil => intro seen; simp [dedupKeyed, keepFirstOcc]
  | cons x xs ih =>
    intro seen
    simp only [dedupKeyed, List.filter_cons]
    by_cases hx : seen.contains (key x)
    · rw [if_pos hx]
      simp only [hx, Bool.not_true, Bool.false_eq_true, if_false]
      exact ih seen
    · rw [if_neg hx]
      simp only [hx, Bool.not_false, if_true, keepFirstOcc]
      rw [ih (key x :: seen), List.filter_filter]
      have hp : List.filter (fun y => !(key x :: seen).contains (key y)) xs
          = List.filter (fun a => key a != key x && !seen.contains (key a)) xs := by
        apply List.filter_congr
        intro y _
        by_cases h : key y = key x
        · simp [List.contains_cons, h, bne]
        · simp [List.contains_cons, Bool.not_or, bne, h]
      rw [hp]

/-- A context whose similar bucket holds the same symbol twice (and whose
relevant bucket does not mention its name). -/
def ctxDupSimilar : ContextData :=
  ⟨[], [⟨"x", "f", "c"⟩, ⟨"x", "f", "c"⟩], [], [], [], []⟩

/-- C4 counterexample: after `deduplicate`, the similar-symbols bucket of
`ctxDupSimilar` still holds two items with the same `(name, file_path)`
key — the engine never deduplicates within the similar bucket, contrary
to the claim that both symbol buckets are keyed-deduplicated. -/
theorem similar_bucket_not_dedup :
    ¬ (deduplicate ctxDupSimilar).similar_symbols.Pairwise
        (fun a b => (a.name, a.file_path) ≠ (b.name, b.file_path)) := by
  decide

/-- C4 amended: `deduplicate` keeps, stably and first-occurrence-wins,
exactly one item per key in the `relevant_symbols` (key `name:file_path`),
`types`, `schemas` (key `name:definition`) and `constants` (key
`name:value`) buckets — each of those buckets ends with pairwise-distinct
keys and equals the first-occurrence sublist of its original; the
`similar_symbols` bucket is NOT deduplicated within itself: it is exactly
the original similar list filtered of every symbol whose name occurs in
the deduplicated relevant bucket (so no similar item shares a name with a
relevant one, and the relevant bucket is computed from the relevant
bucket alone, never shrunk on account of the similar bucket);
`design_tokens` pass through unchanged. -/
theorem deduplicate_buckets_spec (c : ContextData) :
    (deduplicate c).relevant_symbols = keepFirstOcc symKey c.relevant_symbols ∧
    (deduplicate c).types = keepFirstOcc typeKey c.types ∧
    (deduplicate c).constants = keepFirstOcc constKey c.constants ∧
    (deduplicate c).schemas = keepFirstOcc schemaKey c.schemas ∧
    (deduplicate c).relevant_symbols.Pairwise (fun a b => symKey a ≠ symKey b) ∧
    (deduplicate c).types.Pairwise (fun a b => typeKey a ≠ typeKey b) ∧
    (deduplicate c).constants.Pairwise (fun a b => constKey a ≠ constKey b) ∧
    (deduplicate c).schemas.Pairwise (fun a b => schemaKey a ≠ schemaKey b) ∧
    (∀ s ∈ (deduplicate c).similar_symbols,
      ∀ r ∈ (deduplicate c).relevant_symbols, s.name ≠ r.name) ∧
    (deduplicate c).similar_symbols = c.similar_symbols.filter
      (fun s => !((dedupKeyed symKey c.relevant_symbols []).map
        (fun r => r.name)).contains s.name) ∧
    (deduplicate c).design_tokens = c.design_tokens := by
  have hfo : ∀ {α : Type} (key : α → String) (l : List α),
      dedupKeyed key l [] = keepFirstOcc key l := by
    intro α key l
    rw [dedupKeyed_eq_keepFirstOcc key l []]
    congr 1
    simp
  refine ⟨hfo symKey _, hfo typeKey _, hfo constKey _, hfo schemaKey _,
    (dedupKeyed_fresh_pairwise symKey _ []).2,
    (dedupKeyed_fresh_pairwise typeKey _ []).2,
    (dedupKeyed_fresh_pairwise constKey _ []).2,
    (dedupKeyed_fresh_pairwise schemaKey _ []).2,
    ?_, rfl, rfl⟩
  intro s hs r hr heq
  simp only [deduplicate, List.mem_filter] at hs
  have hr' : r.name ∈ (dedupKeyed symKey c.relevant_symbols []).map
      (fun x => x.name) := List.mem_map_of_mem _ hr
  have hcontains := hs.2
  rw [heq] at hcontains
  simp only [Bool.not_eq_true'] at hcontains
  have : r.name ∉ (dedupKeyed symKey c.relevant_symbols []).map
      (fun x => x.name) := by simpa using hcontains
  exact this hr'

/-- C4 amended witness: a context with one relevant symbol named "a" and
a similar symbol named "b": the amended theorem instantiated there shows
the surviving similar item's name differs from the relevant one's. -/
theorem deduplicate_buckets_spec_witness :
    ("b" : String) ≠ "a" :=
  (deduplicate_buckets_spec ⟨[⟨"a", "f", "ca"⟩], [⟨"b", "g", "cb"⟩], [], [], [], []⟩).2.2.2.2.2.2.2.2.1
    ⟨"b", "g", "cb"⟩ (by decide) ⟨"a", "f", "ca"⟩ (by decide)

/-! ## Properties of the execution planner -/

theorem pass_order_kept_perm (reg : String → Option (List String)) :
    ∀ (l order processed : List String) (prog : Bool),
      ((pass reg l order processed prog).order
        ++ (pass reg l order processed prog).kept).Perm (order ++ l) := by
  intro l
  induction l with
  | nil => intro order processed prog; simp [pass]
  | cons w ws ih =>
    intro order processed prog
    simp only [pass]
    cases hreg : reg w with
    | some deps =>
      by_cases hall : deps.all (fun d => processed.contains d)
      · simp only [hall, if_true]
        have h := ih (order ++ [w]) (w :: processed) true
        rw [List.append_assoc] at h
        exact h
      · simp only [hall, if_false]
        have h := ih order processed prog
        refine List.Perm.trans List.perm_middle ?_
        exact (h.cons w).trans List.perm_middle.symm
    | none =>
      have h := ih (order ++ [w]) (w :: processed) true
      rw [List.append_assoc] at h
      exact h

theorem buildLoop_perm (reg : String → Option (List String))
    (remaining order processed : List String) :
    (buildLoop reg remaining order processed).Perm (order ++ remaining) := by
  induction remaining, order, processed using buildLoop.induct reg with
  | case1 order processed => simp [buildLoop]
  | case2 remaining order processed hne r hprog ih =>
    rw [buildLoop, if_neg hne]
    show (if _ : r.progressed = true then buildLoop reg r.kept r.order r.processed
      else r.order ++ r.kept).Perm (order ++ remaining)
    rw [dif_pos hprog]
    exact ih.trans (pass_order_kept_perm reg remaining order processed false)
  | case3 remaining order processed hne r hprog =>
    rw [buildLoop, if_neg hne]
    show (if _ : r.progressed = true then buildLoop reg r.kept r.order r.processed
      else r.order ++ r.kept).Perm (order ++ remaining)
    rw [dif_neg hprog]
    exact pass_order_kept_perm reg remaining order processed false

/-- C2: for every registry and every input list of worker ids — cycles
among the registry dependencies and ids absent from the registry
included — `build_execution_plan` returns a permutation of its input:
every id occurs in the output exactly as many times as in the input,
never a strict subset. (Termination holds by construction: the function
is total in Lean, its recursion measured by the shrinking `remaining`
list.) -/
theorem build_execution_plan_perm (reg : String → Option (List String))
    (worker_ids : List String) :
    (build_execution_plan reg worker_ids).Perm worker_ids ∧
    ∀ s : String, (build_execution_plan reg worker_ids).count s = worker_ids.count s := by
  have h := buildLoop_perm reg worker_ids [] []
  rw [List.nil_append] at h
  exact ⟨h, fun s => h.count_eq s⟩

/-- Executable check that an execution order respects declared
dependencies: scanning left to right with the already-seen prefix, every
id found in the registry has all its dependencies among the earlier
elements (ids absent from the registry impose no constraint). -/
def depsRespected (reg : String → Option (List String)) :
    List String → List String → Bool
  | _, [] => true
  | seen, w :: ws =>
    (match reg w with
     | some deps => deps.all (fun d => seen.contains d)
     | none => true) && depsRespected reg (w :: seen) ws

theorem depsRespected_snoc (reg : String → Option (List String)) :
    ∀ (order seen : List String) (w : String),
      depsRespected reg seen order = true →
      (∀ deps, reg w = some deps → ∀ d ∈ deps, d ∈ seen ∨ d ∈ order) →
      depsRespected reg seen (order ++ [w]) = true := by
  intro order
  induction order with
  | nil =>
    intro seen w _ hdeps
    simp only [List.nil_append, depsRespected, Bool.and_true]
    cases hreg : reg w with
    | some deps =>
      rw [List.all_eq_true]
      intro d hd
      rcases hdeps deps hreg d hd with h | h
      · exact List.elem_eq_true_of_mem h
      · simp at h
    | none => rfl
  | cons o os ih =>
    intro seen w hresp hdeps
    simp only [List.cons_append, depsRespected, Bool.and_eq_true] at hresp ⊢
    refine ⟨hresp.1, ih (o :: seen) w hresp.2 ?_⟩
    intro deps hreg d hd
    rcases hdeps deps hreg d hd with h | h
    · exact Or.inl (List.mem_cons_of_mem o h)
    · rcases List.mem_cons.mp h with h1 | h1
      · exact Or.inl (h1 ▸ List.mem_cons_self o seen)
      · exact Or.inr h1

theorem pass_preserves_resp (reg : String → Option (List String)) :
    ∀ (l order processed : List String) (prog : Bool),
      depsRespected reg [] order = true →
      (∀ d ∈ processed, d ∈ order) →
      depsRespected reg [] (pass reg l order processed prog).order = true ∧
      (∀ d ∈ (pass reg l order processed prog).processed,
        d ∈ (pass reg l order processed prog).order) := by
  intro l
  induction l with
  | nil => intro order processed prog h1 h2; exact ⟨h1, h2⟩
  | cons w ws ih =>
    intro order processed prog h1 h2
    simp only [pass]
    cases hreg : reg w with
    | some deps =>
      by_cases hall : deps.all (fun d => processed.contains d)
      · simp only [hall, if_true]
        apply ih
        · apply depsRespected_snoc reg order [] w h1
          intro deps' hreg' d hd
          right
          rw [hreg] at hreg'
          cases hreg'
          have := List.all_eq_true.mp hall d hd
          exact h2 d (by simpa using this)
        · intro d hd
          rcases List.mem_cons.mp hd with h | h
          · exact h ▸ List.mem_append_right order (List.mem_singleton.mpr rfl)
          · exact List.mem_append_left [w] (h2 d h)
      · simp only [hall, if_false]
        exact ih order processed prog h1 h2
    | none =>
      apply ih
      · apply depsRespected_snoc reg order [] w h1
        intro deps' hreg' d hd
        rw [hreg] at hreg'
        cases hreg'
      · intro d hd
        rcases List.mem_cons.mp hd with h | h
        · exact h ▸ List.mem_append_right order (List.mem_singleton.mpr rfl)
        · exact List.mem_append_left [w] (h2 d h)

theorem pass_mem_account (reg : String → Option (List String)) :
    ∀ (l order processed : List String) (prog : Bool),
      (∀ x ∈ l, x ∈ (pass reg l order processed prog).kept
        ∨ x ∈ (pass reg l order processed prog).processed) ∧
      (∀ x ∈ processed, x ∈ (pass reg l order processed prog).processed) ∧
      (∀ x ∈ (pass reg l order processed prog).kept, x ∈ l) := by
  intro l
  induction l with
  | nil =>
    intro order processed prog
    exact ⟨fun x hx => by simp at hx, fun x hx => hx, fun x hx => by simp [pass] at hx⟩
  | cons w ws ih =>
    intro order processed prog
    simp only [pass]
    cases hreg : reg w with
    | some deps =>
      by_cases hall : deps.all (fun d => processed.contains d)
      · simp only [hall, if_true]
        have h := ih (order ++ [w]) (w :: processed) true
        refine ⟨?_, ?_, ?_⟩
        · intro x hx
          rcases List.mem_cons.mp hx with h1 | h1
          · exact Or.inr (h.2.1 x (h1 ▸ List.mem_cons_self w processed))
          · exact h.1 x h1
        · intro x hx
          exact h.2.1 x (List.mem_cons_of_mem w hx)
        · intro x hx
          exact List.mem_cons_of_mem w (h.2.2 x hx)
      · simp only [hall, if_false]
        have h := ih order processed prog
        refine ⟨?_, h.2.1, ?_⟩
        · intro x hx
          rcases List.mem_cons.mp hx with h1 | h1
          · exact Or.inl (h1 ▸ List.mem_cons_self w _)
          · rcases h.1 x h1 with h2 | h2
            · exact Or.inl (List.mem_cons_of_mem w h2)
            · exact Or.inr h2
        · intro x hx
          rcases List.mem_cons.mp hx with h1 | h1
          · exact h1 ▸ List.mem_cons_self w ws
          · exact List.mem_cons_of_mem w (h.2.2 x h1)
    | none =>
      have h := ih (order ++ [w]) (w :: processed) true
      refine ⟨?_, ?_, ?_⟩
      · intro x hx
        rcases List.mem_cons.mp hx with h1 | h1
        · exact Or.inr (h.2.1 x (h1 ▸ List.mem_cons_self w processed))
        · exact h.1 x h1
      · intro x hx
        exact h.2.1 x (List.mem_cons_of_mem w hx)
      · intro x hx
        exact List.mem_cons_of_mem w (h.2.2 x hx)

theorem pass_prog_mono (reg : String → Option (List String)) :
    ∀ (l order processed : List String),
      (pass reg l order processed true).progressed = true := by
  intro l
  induction l with
  | nil => intro order processed; rfl
  | cons w ws ih =>
    intro order processed
    simp only [pass]
    cases hreg : reg w with
    | some deps =>
      by_cases hall : deps.all (fun d => processed.contains d)
      · simp only [hall, if_true]; exact ih _ _
      · simp only [hall, if_false]; exact ih _ _
    | none => exact ih _ _

theorem pass_stalled (reg : String → Option (List String)) :
    ∀ (l order processed : List String),
      (pass reg l order processed false).progressed = false →
      (pass reg l order processed false).processed = processed ∧
      ∀ w ∈ l, ∃ deps, reg w = some deps ∧
        deps.all (fun d => processed.contains d) = false := by
  intro l
  induction l with
  | nil =>
    intro order processed _
    exact ⟨rfl, fun w hw => by simp at hw⟩
  | cons w ws ih =>
    intro order processed hstall
    simp only [pass] at hstall ⊢
    revert hstall
    cases hreg : reg w with
    | some deps =>
      intro hstall
      by_cases hall : deps.all (fun d => processed.contains d)
      · simp only [hall, if_true, pass_prog_mono reg ws] at hstall
        exact Bool.noConfusion hstall
      · simp only [hall, if_false, Bool.false_eq_true] at hstall ⊢
        have h := ih order processed hstall
        refine ⟨h.1, ?_⟩
        intro v hv
        rcases List.mem_cons.mp hv with h1 | h1
        · exact ⟨deps, by rw [h1]; exact hreg, Bool.eq_false_iff.mpr hall⟩
        · exact h.2 v h1
    | none =>
      intro hstall
      simp only [pass_prog_mono reg ws] at hstall
      exact Bool.noConfusion hstall

theorem exists_rank_min (rank : String → Nat) :
    ∀ (l : List String), l ≠ [] → ∃ w ∈ l, ∀ v ∈ l, rank w ≤ rank v := by
  intro l
  induction l with
  | nil => intro h; exact absurd rfl h
  | cons x xs ih =>
    intro _
    by_cases hxs : xs = []
    · subst hxs
      exact ⟨x, List.mem_singleton.mpr rfl, by
        intro v hv
        rw [List.mem_singleton.mp hv]⟩
    · obtain ⟨m, hm, hmin⟩ := ih hxs
      by_cases hcmp : rank x ≤ rank m
      · refine ⟨x, List.mem_cons_self x xs, ?_⟩
        intro v hv
        rcases List.mem_cons.mp hv with h | h
        · exact h ▸ Nat.le_refl _
        · exact Nat.le_trans hcmp (hmin v h)
      · refine ⟨m, List.mem_cons_of_mem x hm, ?_⟩
        intro v hv
        rcases List.mem_cons.mp hv with h | h
        · exact h ▸ Nat.le_of_lt (Nat.lt_of_not_le hcmp)
        · exact hmin v h

theorem pass_progresses (reg : String → Option (List String))
    (ids : List String) (rank : String → Nat)
    (hreg : ∀ w ∈ ids, ∃ deps, reg w = some deps ∧
      ∀ d ∈ deps, d ∈ ids ∧ rank d < rank w) :
    ∀ (remaining order processed : List String), remaining ≠ [] →
      (∀ x ∈ remaining, x ∈ ids) →
      (∀ x ∈ ids, x ∈ processed ∨ x ∈ remaining) →
      (pass reg remaining order processed false).progressed = true := by
  intro remaining order processed hne hrem hcov
  by_contra hfalse
  rw [Bool.not_eq_true] at hfalse
  obtain ⟨-, hstall⟩ := pass_stalled reg remaining order processed hfalse
  obtain ⟨w, hw, hwmin⟩ := exists_rank_min rank remaining hne
  obtain ⟨deps, hd1, hd2⟩ := hstall w hw
  obtain ⟨deps', hd1', hd2'⟩ := hreg w (hrem w hw)
  rw [hd1] at hd1'
  cases hd1'
  rw [List.all_eq_false] at hd2
  obtain ⟨d, hd, hdproc⟩ := hd2
  have hdids := hd2' d hd
  rcases hcov d hdids.1 with hp | hr
  · exact hdproc (by simpa using List.elem_eq_true_of_mem hp)
  · exact Nat.not_le_of_lt hdids.2 (hwmin d hr)

theorem buildLoop_respects (reg : String → Option (List String))
    (ids : List String) (rank : String → Nat)
    (hreg : ∀ w ∈ ids, ∃ deps, reg w = some deps ∧
      ∀ d ∈ deps, d ∈ ids ∧ rank d < rank w) :
    ∀ (remaining order processed : List String),
      (∀ x ∈ remaining, x ∈ ids) →
      (∀ x ∈ ids, x ∈ processed ∨ x ∈ remaining) →
      depsRespected reg [] order = true →
      (∀ d ∈ processed, d ∈ order) →
      depsRespected reg [] (buildLoop reg remaining order processed) = true := by
  intro remaining order processed
  induction remaining, order, processed using buildLoop.induct reg with
  | case1 order processed =>
    intro _ _ hresp _
    rw [buildLoop, if_pos rfl]
    exact hresp
  | case2 remaining order processed hne r hprog ih =>
    intro hrem hcov hresp hsub
    rw [buildLoop, if_neg hne]
    show depsRespected reg []
      (if _ : r.progressed = true then buildLoop reg r.kept r.order r.processed
        else r.order ++ r.kept) = true
    rw [dif_pos hprog]
    have hacct := pass_mem_account reg remaining order processed false
    have hgood := pass_preserves_resp reg remaining order processed false hresp hsub
    apply ih
    · intro x hx
      exact hrem x (hacct.2.2 x hx)
    · intro x hx
      rcases hcov x hx with h | h
      · exact Or.inl (hacct.2.1 x h)
      · rcases hacct.1 x h with h1 | h1
        · exact Or.inr h1
        · exact Or.inl h1
    · exact hgood.1
    · exact hgood.2
  | case3 remaining order processed hne r hprog =>
    intro hrem hcov _ _
    exact absurd (pass_progresses reg ids rank hreg remaining order processed hne hrem hcov)
      hprog

/-- C3: when every input id is in the registry, every declared dependency
of an input id is itself in the input, and the dependency graph
restricted to the input is acyclic — witnessed by a rank function that
strictly decreases from an id to each of its dependencies — the plan
`build_execution_plan` produces places every id strictly after all of
its declared dependencies (`depsRespected` checks exactly that: each
id's dependencies all occur among the elements preceding it). -/
theorem build_execution_plan_topological (reg : String → Option (List String))
    (ids : List String) (rank : String → Nat)
    (hreg : ∀ w ∈ ids, ∃ deps, reg w = some deps ∧
      ∀ d ∈ deps, d ∈ ids ∧ rank d < rank w) :
    depsRespected reg [] (build_execution_plan reg ids) = true :=
  buildLoop_respects reg ids rank hreg ids [] []
    (fun _ hx => hx) (fun _ hx => Or.inr hx) rfl
    (fun d hd => absurd hd (List.not_mem_nil d))

/-- Fuel-indexed restatement of the planner's while loop, structurally
recursive so the kernel can evaluate it on concrete inputs; with fuel at
least `remaining.length` it equals `buildLoop` (next lemma). -/
def buildLoopFuel (reg : String → Option (List String)) :
    Nat → List String → List String → List String → List String
  | 0, remaining, order, _ => order ++ remaining
  | fuel + 1, remaining, order, processed =>
    if remaining = [] then order
    else if (pass reg remaining order processed false).progressed = true then
      buildLoopFuel reg fuel (pass reg remaining order processed false).kept
        (pass reg remaining order processed false).order
        (pass reg remaining order processed false).processed
    else (pass reg remaining order processed false).order
      ++ (pass reg remaining order processed false).kept

theorem buildLoopFuel_eq (reg : String → Option (List String)) :
    ∀ (fuel : Nat) (remaining order processed : List String),
      remaining.length ≤ fuel →
      buildLoopFuel reg fuel remaining order processed
        = buildLoop reg remaining order processed := by
  intro fuel
  induction fuel with
  | zero =>
    intro remaining order processed h
    have hnil : remaining = [] := List.eq_nil_of_length_eq_zero (Nat.le_zero.mp h)
    subst hnil
    rw [buildLoop, if_pos rfl]
    simp [buildLoopFuel]
  | succ n ih =>
    intro remaining order processed h
    by_cases hne : remaining = []
    · subst hne
      rw [buildLoop, if_pos rfl]
      simp [buildLoopFuel]
    · rw [buildLoop, if_neg hne]
      show buildLoopFuel reg (n + 1) remaining order processed
        = (if _ : (pass reg remaining order processed false).progressed = true
            then buildLoop reg (pass reg remaining order processed false).kept
              (pass reg remaining order processed false).order
              (pass reg remaining order processed false).processed
            else (pass reg remaining order processed false).order
              ++ (pass reg remaining order processed false).kept)
      simp only [buildLoopFuel, if_neg hne]
      by_cases hp : (pass reg remaining order processed false).progressed = true
      · rw [if_pos hp, dif_pos hp]
        apply ih
        have := pass_progress_kept_lt reg remaining order processed hp
        omega
      · rw [if_neg hp, dif_neg hp]

/-- The spec fixture registry: worker A has no dependencies, B depends on
A, and C depends on A and B. -/
def regFix : String → Option (List String) := fun s =>
  if s = "A" then some [] else if s = "B" then some ["A"]
  else if s = "C" then some ["A", "B"] else none

/-- A rank function witnessing that the fixture registry is acyclic. -/
def rankFix : String → Nat := fun s =>
  if s = "A" then 0 else if s = "B" then 1 else 2

/-- C3 witness: on the fixture with input order [C, B, A] the topological
theorem applies, and the computed plan is exactly [A, B, C] — so
index(A) < index(B) < index(C). -/
theorem build_execution_plan_topological_witness :
    depsRespected regFix [] (build_execution_plan regFix ["C", "B", "A"]) = true ∧
    build_execution_plan regFix ["C", "B", "A"] = ["A", "B", "C"] :=
  ⟨build_execution_plan_topological regFix ["C", "B", "A"] rankFix (by
      intro w hw
      simp only [List.mem_cons, List.not_mem_nil, or_false] at hw
      rcases hw with h | h | h <;> subst h
      · exact ⟨["A", "B"], rfl, by decide⟩
      · exact ⟨["A"], rfl, by decide⟩
      · exact ⟨[], rfl, by decide⟩),
   by
    show buildLoop regFix ["C", "B", "A"] [] [] = ["A", "B", "C"]
    rw [← buildLoopFuel_eq regFix 3 ["C", "B", "A"] [] [] (by decide)]
    decide⟩

end Miow
